import Mathlib

/-!
# Verification of the pyhOn parameter / rule / command model

Shallow embedding of the core data model of the pyhOn library
(`src/pyhon/parameter/*.py`, `src/pyhon/rules.py`, `src/pyhon/commands.py`,
`src/pyhon/command_loader.py`) together with proofs of the spec's testable
properties.

Conventions used throughout:
* Python `float` arithmetic is embedded as exact rational arithmetic (`ℚ`);
  Python's `%` on numbers is `pymod a b = a - b * ⌊a / b⌋`.
* Python `str` is embedded as `List Char`; `str.lower`, `str.replace` and
  `str.strip` are embedded character-by-character.
* Python `dict` (insertion ordered, assignment of an existing key keeps its
  position) is embedded as an association list with `dictSet` / `dictGet` /
  `dictPop` mirroring `d[k] = v`, `d.get(k)` and `d.pop(k)`.
* A method that either mutates `self` or raises is embedded as a function
  into `Except String σ` (the error branch leaves the state unchanged), or,
  when the method mutates `self` *before* it can raise, as a function into
  `σ × Option String` returning the (possibly partially mutated) state.
-/

namespace PyHon

/-- Embedding of Python strings. -/
abbrev Str := List Char

/-- Python `%` on numbers (sign of the result follows the divisor):
`a % b = a - b * floor (a / b)`. -/
def pymod (a b : ℚ) : ℚ := a - b * ⌊a / b⌋

/-- Lemma: `pymod a b = 0` exactly when `a` is an integer multiple of `b`
(for a nonzero divisor `b`). -/
theorem pymod_eq_zero_iff (a b : ℚ) (hb : b ≠ 0) :
    pymod a b = 0 ↔ ∃ k : ℤ, a = k * b := by
  unfold pymod
  constructor
  · intro h
    exact ⟨⌊a / b⌋, by linarith⟩
  · rintro ⟨k, rfl⟩
    have : (k * b) / b = (k : ℚ) := by field_simp
    rw [this, Int.floor_intCast]
    ring

/-! ## `HonParameterRange` (src/pyhon/parameter/range.py)

The numeric fields of the Python object.  `_value` is the raw stored value
(the `value` getter returns `self.min` when it is `None`; in this embedding
the stored value is always present, matching every reachable state of the
source, whose constructor always assigns `_value = _default`). -/

structure HonParameterRange where
  min : ℚ
  max : ℚ
  _step : ℚ
  _default : ℚ
  _value : ℚ
deriving DecidableEq, Repr

/-- The constructor-relevant attributes of the schema leaf
(`minimumValue`, `maximumValue`, `incrementValue`, `defaultValue`);
`none` embeds an absent key, whose Python `attributes.get(k, 0)`
default is `0` (and `self.min` for `defaultValue`). -/
structure RangeAttrs where
  minimumValue : Option ℚ
  maximumValue : Option ℚ
  incrementValue : Option ℚ
  defaultValue : Option ℚ
deriving DecidableEq, Repr

/-- Embedding of `HonParameterRange._set_attributes` / `__init__`. -/
def mkHonParameterRange (a : RangeAttrs) : HonParameterRange :=
  let mn := a.minimumValue.getD 0
  let df := a.defaultValue.getD mn
  { min := mn
    max := a.maximumValue.getD 0
    _step := a.incrementValue.getD 0
    _default := df
    _value := df }

/-- The `step` property: `if not self._step: return 1; return self._step`. -/
def HonParameterRange.step (p : HonParameterRange) : ℚ :=
  if p._step = 0 then 1 else p._step

/-- The `value` setter (lines 43–53 of range.py): validates
`min <= value <= max` and `not ((value - min) * 100) % (step * 100)`;
on success stores the value, otherwise raises `ValueError` leaving the
object untouched.  (The `check_trigger` call on the success path is the
trigger machinery modelled separately; it does not assign any field of the
range parameter itself.) -/
def HonParameterRange.setValue (p : HonParameterRange) (v : ℚ) :
    Except String HonParameterRange :=
  if p.min ≤ v ∧ v ≤ p.max ∧ pymod ((v - p.min) * 100) (p.step * 100) = 0 then
    .ok { p with _value := v }
  else
    .error "ValueError"

/-- Embedding of `apply_fixed_value` (lines 55–61 of range.py): widens `min`/`max` to
include `v`, then assigns through the validating `value` setter.  The
widening happens *before* the setter can raise, so the error branch
returns the widened state. -/
def HonParameterRange.applyFixedValue (p : HonParameterRange) (v : ℚ) :
    HonParameterRange × Option String :=
  let p1 : HonParameterRange := { p with min := Min.min p.min v, max := Max.max p.max v }
  match p1.setValue v with
  | .ok p2 => (p2, none)
  | .error e => (p1, some e)

/-- The `step` property never returns `0`. -/
theorem HonParameterRange.step_ne_zero (p : HonParameterRange) : p.step ≠ 0 := by
  unfold HonParameterRange.step
  split
  · exact one_ne_zero
  · assumption

/-- The setter's divisibility test `((v - min) * 100) % (step * 100) == 0`
holds exactly when `v - min` is an integer multiple of `step`. -/
theorem range_divisible_iff (p : HonParameterRange) (v : ℚ) :
    pymod ((v - p.min) * 100) (p.step * 100) = 0 ↔
      ∃ k : ℤ, v - p.min = k * p.step := by
  rw [pymod_eq_zero_iff _ _ (by simpa using p.step_ne_zero)]
  constructor
  · rintro ⟨k, hk⟩
    exact ⟨k, by linarith⟩
  · rintro ⟨k, hk⟩
    exact ⟨k, by rw [hk]; ring⟩

/-- Claim C2: for every `HonParameterRange` and every input `v`, the `value`
setter succeeds if and only if `min ≤ v ≤ max` and `v - min` is an integer
multiple of `step`; on success the stored value becomes `v` while `min`,
`max`, `_step` (and `_default`) are untouched, and on violation the setter
raises `ValueError` and the state is unchanged. -/
theorem range_setValue_valid_iff (p : HonParameterRange) (v : ℚ) :
    ((∃ q, p.setValue v = .ok q) ↔
      p.min ≤ v ∧ v ≤ p.max ∧ ∃ k : ℤ, v - p.min = k * p.step) ∧
    (p.setValue v = .ok { p with _value := v } ∨
      p.setValue v = .error "ValueError") := by
  unfold HonParameterRange.setValue
  split
  case isTrue h =>
    refine ⟨⟨fun _ => ⟨h.1, h.2.1, (range_divisible_iff p v).mp h.2.2⟩, ?_⟩, .inl rfl⟩
    intro _
    exact ⟨_, rfl⟩
  case isFalse h =>
    refine ⟨⟨?_, ?_⟩, .inr rfl⟩
    · rintro ⟨q, hq⟩
      exact absurd hq (by simp)
    · intro hcond
      exact absurd ⟨hcond.1, hcond.2.1, (range_divisible_iff p v).mpr hcond.2.2⟩ h

/-- Witness for `range_setValue_valid_iff` at a concrete parameter
(min 0, max 100, step 10) and input 40. -/
theorem range_setValue_valid_iff_witness :
    (∃ q, (mkHonParameterRange
        ⟨some 0, some 100, some 10, some 0⟩).setValue 40 = .ok q) ↔
      (mkHonParameterRange ⟨some 0, some 100, some 10, some 0⟩).min ≤ 40 ∧
      (40:ℚ) ≤ (mkHonParameterRange ⟨some 0, some 100, some 10, some 0⟩).max ∧
      ∃ k : ℤ, (40:ℚ) - (mkHonParameterRange ⟨some 0, some 100, some 10, some 0⟩).min =
        k * (mkHonParameterRange ⟨some 0, some 100, some 10, some 0⟩).step :=
  (range_setValue_valid_iff (mkHonParameterRange ⟨some 0, some 100, some 10, some 0⟩) 40).1

/-- Claim C10: the `step` property returns 1 when the schema's
`incrementValue` is absent or `0`, and is never `0` on any state, so the
modulo divisor `step * 100` in the `value` setter is never zero: invalid
inputs can only be rejected through the `ValueError` branch, never through
a division/modulo-by-zero exception. -/
theorem range_step_default_one_and_nonzero (p : HonParameterRange)
    (a : RangeAttrs) (h : a.incrementValue = none ∨ a.incrementValue = some 0) :
    (mkHonParameterRange a).step = 1 ∧ p.step ≠ 0 ∧ p.step * 100 ≠ 0 := by
  refine ⟨?_, p.step_ne_zero, by simpa using p.step_ne_zero⟩
  have hz : (mkHonParameterRange a)._step = 0 := by
    rcases h with h | h <;> simp [mkHonParameterRange, h]
  simp [HonParameterRange.step, hz]

/-- Witness for `range_step_default_one_and_nonzero`: a parameter whose
schema leaf carries no `incrementValue` at all. -/
theorem range_step_default_one_and_nonzero_witness :
    (mkHonParameterRange ⟨none, some 5, none, none⟩).step = 1 ∧
    (mkHonParameterRange ⟨none, some 5, none, none⟩).step ≠ 0 ∧
    (mkHonParameterRange ⟨none, some 5, none, none⟩).step * 100 ≠ 0 :=
  range_step_default_one_and_nonzero
    (mkHonParameterRange ⟨none, some 5, none, none⟩)
    ⟨none, some 5, none, none⟩ (.inl rfl)

/-- After widening, the bounds check of the `value` setter always passes,
so `apply_fixed_value` reduces to the step-divisibility test alone. -/
theorem applyFixedValue_eq (p : HonParameterRange) (v : ℚ) :
    p.applyFixedValue v =
      (if pymod ((v - Min.min p.min v) * 100) (p.step * 100) = 0 then
        ({ p with min := Min.min p.min v, max := Max.max p.max v, _value := v }, none)
      else
        ({ p with min := Min.min p.min v, max := Max.max p.max v }, some "ValueError")) := by
  unfold HonParameterRange.applyFixedValue HonParameterRange.setValue
  have hmin : Min.min p.min v ≤ v := min_le_right p.min v
  have hmax : v ≤ Max.max p.max v := le_max_right p.max v
  have hstep : ({ p with min := Min.min p.min v, max := Max.max p.max v } :
      HonParameterRange).step = p.step := rfl
  simp only [hstep, hmin, hmax, true_and]
  by_cases hd : pymod ((v - Min.min p.min v) * 100) (p.step * 100) = 0
  · rw [if_pos hd, if_pos hd]
  · rw [if_neg hd, if_neg hd]

/-- Claim C7 (amended): `apply_fixed_value(v)` on a `HonParameterRange`
always updates `min` to `min(min, v)` and `max` to `max(max, v)` — bounds
are only widened, never narrowed, and `step` is unchanged — but the
subsequent assignment goes through the validating `value` setter, which
still enforces the step constraint against the widened minimum: the value
becomes `v` exactly when `v - min(min, v)` is an integer multiple of
`step` (in particular always when `v ≤ min`); otherwise `ValueError` is
raised and the stored value is left unchanged (with the bounds already
widened). -/
theorem apply_fixed_value_widens_then_validates (p : HonParameterRange) (v : ℚ) :
    (p.applyFixedValue v).1.min = Min.min p.min v ∧
    (p.applyFixedValue v).1.max = Max.max p.max v ∧
    (p.applyFixedValue v).1.min ≤ p.min ∧
    p.max ≤ (p.applyFixedValue v).1.max ∧
    (p.applyFixedValue v).1._step = p._step ∧
    ((p.applyFixedValue v).2 = none ↔
      ∃ k : ℤ, v - Min.min p.min v = k * p.step) ∧
    ((p.applyFixedValue v).2 = none → (p.applyFixedValue v).1._value = v) ∧
    ((p.applyFixedValue v).2 ≠ none → (p.applyFixedValue v).1._value = p._value) ∧
    (v ≤ p.min → (p.applyFixedValue v).2 = none) := by
  have hdvd : pymod ((v - Min.min p.min v) * 100) (p.step * 100) = 0 ↔
      ∃ k : ℤ, v - Min.min p.min v = k * p.step := by
    simpa using range_divisible_iff { p with min := Min.min p.min v, max := Max.max p.max v } v
  rw [applyFixedValue_eq]
  split
  case isTrue h =>
    refine ⟨rfl, rfl, min_le_left _ _, le_max_left _ _, rfl, ?_, fun _ => rfl, ?_, fun _ => rfl⟩
    · simpa using hdvd.mp h
    · intro hc
      exact absurd rfl hc
  case isFalse h =>
    refine ⟨rfl, rfl, min_le_left _ _, le_max_left _ _, rfl, ?_, ?_, fun _ => rfl, ?_⟩
    · simp only [reduceCtorEq, false_iff]
      exact fun hk => h (hdvd.mpr hk)
    · intro hc
      exact absurd hc (by simp)
    · intro hv
      exfalso
      apply h
      apply hdvd.mpr
      refine ⟨0, ?_⟩
      have : Min.min p.min v = v := min_eq_right hv
      rw [this]
      ring

/-- Witness for `apply_fixed_value_widens_then_validates` at a concrete
parameter (min 50, max 100, step 10) and rule value 40 (below `min`):
bounds widen and the value is applied. -/
theorem apply_fixed_value_widens_then_validates_witness :
    ((mkHonParameterRange ⟨some 50, some 100, some 10, some 50⟩).applyFixedValue 40).2 = none ∧
    ((mkHonParameterRange ⟨some 50, some 100, some 10, some 50⟩).applyFixedValue 40).1.min =
      Min.min (mkHonParameterRange ⟨some 50, some 100, some 10, some 50⟩).min 40 := by
  have h := apply_fixed_value_widens_then_validates
    (mkHonParameterRange ⟨some 50, some 100, some 10, some 50⟩) 40
  refine ⟨h.2.2.2.2.2.2.2.2 ?_, h.1⟩
  norm_num [mkHonParameterRange]

/-- Claim C7 counterexample: the claim "apply_fixed_value then assigns v as
the parameter's value, so the rule's value is applied even if the
parameter's previous bounds would have rejected it" fails when the rule
value is inside the bounds but off-step: for min 0, max 100, step 10 and
rule value 45, `apply_fixed_value(45)` raises `ValueError` and the stored
value remains the default 0, not 45. -/
theorem apply_fixed_value_offstep_counterexample :
    ((mkHonParameterRange ⟨some 0, some 100, some 10, some 0⟩).applyFixedValue 45).2 =
      some "ValueError" ∧
    ((mkHonParameterRange ⟨some 0, some 100, some 10, some 0⟩).applyFixedValue 45).1._value
      ≠ 45 := by
  rw [applyFixedValue_eq]
  norm_num [mkHonParameterRange, HonParameterRange.step, pymod]

/-! ## Python dict / string primitives -/

/-- Python `d.get(k)` on an insertion-ordered dict embedded as an association
list. -/
def dictGet {κ α : Type} [DecidableEq κ] (m : List (κ × α)) (k : κ) : Option α :=
  match m with
  | [] => none
  | (k', v) :: t => if k' = k then some v else dictGet t k

/-- Python `d[k] = v`: overwrite in place (an existing key keeps its position),
otherwise append. -/
def dictSet {κ α : Type} [DecidableEq κ] (m : List (κ × α)) (k : κ) (v : α) :
    List (κ × α) :=
  match m with
  | [] => [(k, v)]
  | (k', v') :: t => if k' = k then (k', v) :: t else (k', v') :: dictSet t k v

/-- Python `d.pop(k)`: remove the first entry with key `k`. -/
def dictPop {κ α : Type} [DecidableEq κ] (m : List (κ × α)) (k : κ) :
    List (κ × α) :=
  match m with
  | [] => []
  | (k', v') :: t => if k' = k then t else (k', v') :: dictPop t k

/-- Python `d.setdefault(k, []).append(x)`. -/
def setdefaultAppend {κ α : Type} [DecidableEq κ] (m : List (κ × List α)) (k : κ)
    (x : α) : List (κ × List α) :=
  match m with
  | [] => [(k, [x])]
  | (k', l) :: t =>
    if k' = k then (k', l ++ [x]) :: t else (k', l) :: setdefaultAppend t k x

theorem dictGet_setdefaultAppend_self {κ α : Type} [DecidableEq κ]
    (m : List (κ × List α)) (k : κ) (x : α) :
    dictGet (setdefaultAppend m k x) k = some ((dictGet m k).getD [] ++ [x]) := by
  induction m with
  | nil => simp [setdefaultAppend, dictGet]
  | cons hd t ih =>
    obtain ⟨k', l⟩ := hd
    by_cases h : k' = k
    · simp [setdefaultAppend, dictGet, h]
    · simp [setdefaultAppend, dictGet, h, ih]

theorem dictGet_setdefaultAppend_ne {κ α : Type} [DecidableEq κ]
    (m : List (κ × List α)) (k k' : κ) (x : α) (h : k' ≠ k) :
    dictGet (setdefaultAppend m k x) k' = dictGet m k' := by
  induction m with
  | nil =>
    simp only [setdefaultAppend, dictGet]
    rw [if_neg (Ne.symm h)]
  | cons hd t ih =>
    obtain ⟨k₀, l⟩ := hd
    by_cases h0 : k₀ = k
    · subst h0
      simp only [setdefaultAppend, if_pos rfl, dictGet]
      rw [if_neg (Ne.symm h), if_neg (Ne.symm h)]
    · simp only [setdefaultAppend, if_neg h0, dictGet]
      by_cases h1 : k₀ = k'
      · rw [if_pos h1, if_pos h1]
      · rw [if_neg h1, if_neg h1, ih]

/-- Python `str.strip("[]")` strips characters of this set from both ends. -/
def isStripChar (c : Char) : Bool := c == '[' || c == ']'

/-- Python `s.strip("[]")`. -/
def pyStrip (s : Str) : Str :=
  ((s.dropWhile isStripChar).reverse.dropWhile isStripChar).reverse

/-- Python `s.replace("|", "_")` (single-character pattern: a character map). -/
def pyReplacePipe (s : Str) : Str := s.map fun c => if c = '|' then '_' else c

/-- Python `s.lower()` (character map; ASCII, as produced by the appliance
schemas). -/
def pyLower (s : Str) : Str := s.map Char.toLower

/-- Embedding of `clean_value` of src/pyhon/parameter/enum.py:
`str(value).strip("[]").replace("|", "_").lower()`. -/
def clean_value (s : Str) : Str := pyLower (pyReplacePipe (pyStrip s))

theorem char_toNat_ofNat {n : ℕ} (h : n < 55296) : (Char.ofNat n).toNat = n := by
  unfold Char.ofNat
  rw [dif_pos (Or.inl h)]
  rfl

theorem toLower_toLower (c : Char) : c.toLower.toLower = c.toLower := by
  unfold Char.toLower
  by_cases h : c.toNat ≥ 65 ∧ c.toNat ≤ 90
  · rw [if_pos h]
    have h32 : (Char.ofNat (c.toNat + 32)).toNat = c.toNat + 32 :=
      char_toNat_ofNat (by omega)
    rw [if_neg (by omega)]
  · rw [if_neg h, if_neg h]

theorem toLower_toNat_eq_or (c : Char) :
    c.toLower.toNat = c.toNat ∨
      (c.toLower.toNat = c.toNat + 32 ∧ 65 ≤ c.toNat ∧ c.toNat ≤ 90) := by
  unfold Char.toLower
  by_cases h : c.toNat ≥ 65 ∧ c.toNat ≤ 90
  · rw [if_pos h]
    exact .inr ⟨char_toNat_ofNat (by omega), h.1, h.2⟩
  · rw [if_neg h]
    exact .inl rfl

theorem char_eq_iff_toNat (c d : Char) : c = d ↔ c.toNat = d.toNat := by
  constructor
  · rintro rfl; rfl
  · intro h
    exact Char.eq_of_val_eq (UInt32.toNat.inj h)

theorem char_toNat_lbracket : ('[' : Char).toNat = 91 := by decide

theorem char_toNat_rbracket : (']' : Char).toNat = 93 := by decide

theorem char_toNat_pipe : ('|' : Char).toNat = 124 := by decide

theorem isStripChar_iff (c : Char) :
    isStripChar c = true ↔ (c.toNat = 91 ∨ c.toNat = 93) := by
  simp only [isStripChar, Bool.or_eq_true, beq_iff_eq, char_eq_iff_toNat,
    char_toNat_lbracket, char_toNat_rbracket]

theorem isStripChar_toLower (c : Char) : isStripChar c.toLower = isStripChar c := by
  rw [Bool.eq_iff_iff, isStripChar_iff, isStripChar_iff]
  rcases toLower_toNat_eq_or c with h | ⟨h, h1, h2⟩ <;> omega

theorem toLower_ne_pipe (c : Char) (h : c ≠ '|') : c.toLower ≠ '|' := by
  rw [ne_eq, char_eq_iff_toNat, char_toNat_pipe]
  rw [ne_eq, char_eq_iff_toNat, char_toNat_pipe] at h
  rcases toLower_toNat_eq_or c with h0 | ⟨h0, h1, h2⟩ <;> omega

theorem dropWhile_head_false {p : Char → Bool} {l : Str} {c : Char} {t : Str}
    (h : l.dropWhile p = c :: t) : p c = false := by
  induction l with
  | nil => simp [List.dropWhile] at h
  | cons a l ih =>
    rw [List.dropWhile_cons] at h
    by_cases hp : p a
    · exact ih (by rwa [if_pos hp] at h)
    · rw [if_neg hp] at h
      cases h
      simpa using hp

theorem dropWhile_eq_self {p : Char → Bool} {l : Str}
    (h : ∀ c t, l = c :: t → p c = false) : l.dropWhile p = l := by
  cases l with
  | nil => rfl
  | cons a t =>
    rw [List.dropWhile_cons]
    simp [h a t rfl]

theorem pyStrip_head_false {s : Str} {c : Char} {t : Str} (h : pyStrip s = c :: t) :
    isStripChar c = false := by
  unfold pyStrip at h
  have h1 : (s.dropWhile isStripChar).reverse.takeWhile isStripChar ++
      (s.dropWhile isStripChar).reverse.dropWhile isStripChar =
      (s.dropWhile isStripChar).reverse :=
    List.takeWhile_append_dropWhile isStripChar (s.dropWhile isStripChar).reverse
  have h2 : s.dropWhile isStripChar =
      ((s.dropWhile isStripChar).reverse.dropWhile isStripChar).reverse ++
      ((s.dropWhile isStripChar).reverse.takeWhile isStripChar).reverse := by
    conv_lhs => rw [← List.reverse_reverse (s.dropWhile isStripChar), ← h1]
    rw [List.reverse_append]
  rw [h] at h2
  exact dropWhile_head_false (by rw [h2, List.cons_append])

theorem pyStrip_last_false {s : Str} {c : Char} {t : Str}
    (h : (pyStrip s).reverse = c :: t) : isStripChar c = false := by
  unfold pyStrip at h
  rw [List.reverse_reverse] at h
  exact dropWhile_head_false h

theorem pyStrip_eq_self {l : Str}
    (h1 : ∀ c t, l = c :: t → isStripChar c = false)
    (h2 : ∀ c t, l.reverse = c :: t → isStripChar c = false) :
    pyStrip l = l := by
  unfold pyStrip
  rw [dropWhile_eq_self h1, dropWhile_eq_self h2, List.reverse_reverse]

theorem pyStrip_idem (s : Str) : pyStrip (pyStrip s) = pyStrip s :=
  pyStrip_eq_self (fun _ _ h => pyStrip_head_false h)
    (fun _ _ h => pyStrip_last_false h)

/-- Lemma: `clean_value` as a single character map over the stripped string. -/
theorem clean_value_eq_map (s : Str) :
    clean_value s =
      (pyStrip s).map fun c => Char.toLower (if c = '|' then '_' else c) := by
  simp [clean_value, pyLower, pyReplacePipe, List.map_map, Function.comp_def]

theorem isStripChar_cleanChar (c : Char) :
    isStripChar (Char.toLower (if c = '|' then '_' else c)) = isStripChar c := by
  rw [isStripChar_toLower]
  by_cases h : c = '|'
  · rw [if_pos h, h]
    decide
  · rw [if_neg h]

theorem pyStrip_map_cleanChar (s : Str) :
    pyStrip ((pyStrip s).map fun c => Char.toLower (if c = '|' then '_' else c)) =
      (pyStrip s).map fun c => Char.toLower (if c = '|' then '_' else c) := by
  apply pyStrip_eq_self
  · intro c t h
    cases hs : pyStrip s with
    | nil => rw [hs] at h; simp at h
    | cons c0 t0 =>
      rw [hs, List.map_cons] at h
      obtain ⟨hc, -⟩ := List.cons.inj h
      rw [← hc, isStripChar_cleanChar]
      exact pyStrip_head_false hs
  · intro c t h
    rw [← List.map_reverse] at h
    cases hs : (pyStrip s).reverse with
    | nil => rw [hs] at h; simp at h
    | cons c0 t0 =>
      rw [hs, List.map_cons] at h
      obtain ⟨hc, -⟩ := List.cons.inj h
      rw [← hc, isStripChar_cleanChar]
      exact pyStrip_last_false hs

theorem cleanChar_ne_pipe (c : Char) :
    Char.toLower (if c = '|' then '_' else c) ≠ '|' := by
  by_cases h : c = '|'
  · rw [if_pos h]
    decide
  · rw [if_neg h]
    exact toLower_ne_pipe c h

/-- Lemma: `clean_value` is idempotent: re-cleaning an already-cleaned token is a
no-op (cleaned tokens have no surrounding brackets, no `|`, and are
already lowercase). -/
theorem clean_value_idem (s : Str) : clean_value (clean_value s) = clean_value s := by
  conv_lhs => rw [clean_value_eq_map s, clean_value]
  rw [pyStrip_map_cleanChar s]
  have hrepl : pyReplacePipe
      ((pyStrip s).map fun c => Char.toLower (if c = '|' then '_' else c)) =
      (pyStrip s).map fun c => Char.toLower (if c = '|' then '_' else c) := by
    unfold pyReplacePipe
    rw [List.map_map]
    apply List.map_congr_left
    intro c _
    simp [cleanChar_ne_pipe c]
  rw [hrepl]
  unfold pyLower
  rw [List.map_map]
  rw [clean_value_eq_map s]
  apply List.map_congr_left
  intro c _
  simp [Function.comp_def, toLower_toLower]

/-- Stripping before cleaning changes nothing (the constructor of
`EnumParameter` compares `clean_value(default.strip("[]"))` with the
cleaned values). -/
theorem clean_value_pyStrip (s : Str) : clean_value (pyStrip s) = clean_value s := by
  unfold clean_value
  rw [pyStrip_idem]

/-! ## `EnumParameter` (src/pyhon/parameter/enum.py) -/

/-- Constructor-relevant attributes of an enum schema leaf: `defaultValue`
(`none` embeds an absent key, which Python defaults to `""`) and
`enumValues`. -/
structure EnumAttrs where
  defaultValue : Option Str
  enumValues : List Str
deriving DecidableEq, Repr

/-- The stored fields of `EnumParameter` relevant to its value contract
(`_default`, `_value`, `_values`; the common bookkeeping attributes
`key`/`category`/`typology`/`mandatory`/`group` and the trigger table are
carried by the base class and modelled separately). -/
structure EnumParameter where
  _default : Str
  _value : Str
  _values : List Str
deriving DecidableEq, Repr

/-- The `values` property: `[clean_value(value) for value in self._values]`. -/
def EnumParameter.values (p : EnumParameter) : List Str :=
  p._values.map clean_value

/-- Embedding of `EnumParameter.__init__` / `_set_attributes`:
`_default = attributes.get("defaultValue", "")`,
`_value = self._default or "0"`,
`_values = attributes.get("enumValues", [])`, then
`if self._default and clean_value(self._default.strip("[]")) not in
self.values: self._values.append(self._default)`. -/
def mkEnumParameter (a : EnumAttrs) : EnumParameter :=
  let d := a.defaultValue.getD []
  let p : EnumParameter :=
    { _default := d
      _value := if d = [] then ['0'] else d
      _values := a.enumValues }
  if d ≠ [] ∧ clean_value (pyStrip d) ∉ p.values then
    { p with _values := p._values ++ [d] }
  else p

/-- The `value` getter: `clean_value(self._value)` (the stored value is
always present in any state reachable from the constructor). -/
def EnumParameter.value (p : EnumParameter) : Str := clean_value p._value

/-- The `value` setter: accepts exactly the tokens of `self.values`,
raising `ValueError` otherwise.  (`check_trigger` on the success path is
part of the separately modelled trigger machinery and assigns no field of
the enum itself.) -/
def EnumParameter.setValue (p : EnumParameter) (v : Str) :
    Except String EnumParameter :=
  if v ∈ p.values then .ok { p with _value := v } else .error "ValueError"

/-- Claim C3 counterexample: for an attribute dict without a `defaultValue`
(here `{"enumValues": ["a"]}`), construction stores `"0"` as the value,
which is not among the allowed values — the claimed invariant
`value ∈ values` fails immediately after construction. -/
theorem enum_no_default_breaks_invariant :
    (mkEnumParameter ⟨none, [['a']]⟩).value ∉
      (mkEnumParameter ⟨none, [['a']]⟩).values := by decide

/-- Claim C3 (amended): the invariant `value ∈ values` holds after
construction whenever the attribute dict carries a (non-empty)
`defaultValue` — without one the stored value is `"0"`, which need not be
allowed — and it holds after every successful `value` set; setting a token
outside `values` raises `ValueError` and leaves the parameter unchanged. -/
theorem enum_value_mem_values (a : EnumAttrs) (p : EnumParameter) (v : Str) :
    (∀ d, a.defaultValue = some d → d ≠ [] →
      (mkEnumParameter a).value ∈ (mkEnumParameter a).values) ∧
    (∀ q, p.setValue v = .ok q →
      q.value ∈ q.values ∧ q._value = v ∧ q._values = p._values) ∧
    (v ∉ p.values → p.setValue v = .error "ValueError") := by
  refine ⟨?_, ?_, ?_⟩
  · intro d hd hne
    unfold mkEnumParameter
    rw [hd]
    simp only [Option.getD_some, EnumParameter.value, EnumParameter.values]
    rw [if_neg hne]
    by_cases hc : d ≠ [] ∧ clean_value (pyStrip d) ∉ (a.enumValues.map clean_value)
    · rw [if_pos (by simpa using hc)]
      simp only [List.map_append, List.map_cons, List.map_nil]
      exact List.mem_append_right _ (List.mem_singleton.mpr rfl)
    · rw [if_neg (by simpa using hc)]
      push_neg at hc
      have h2 := hc hne
      rw [clean_value_pyStrip] at h2
      simpa using h2
  · intro q hq
    unfold EnumParameter.setValue at hq
    by_cases hv : v ∈ p.values
    · rw [if_pos hv] at hq
      cases hq
      refine ⟨?_, rfl, rfl⟩
      obtain ⟨x, hx, hxv⟩ := List.mem_map.mp hv
      simp only [EnumParameter.value, EnumParameter.values]
      rw [← hxv, clean_value_idem, hxv]
      exact hv
    · rw [if_neg hv] at hq
      cases hq
  · intro hv
    unfold EnumParameter.setValue
    rw [if_neg hv]

/-- Witness for `enum_value_mem_values`: a parameter with default `"b"`
and values `["a"]` satisfies the invariant after construction, and
setting the disallowed token `"z"` on a parameter with values `["a"]`
raises. -/
theorem enum_value_mem_values_witness :
    ((mkEnumParameter ⟨some ['b'], [['a']]⟩).value ∈
      (mkEnumParameter ⟨some ['b'], [['a']]⟩).values) ∧
    (EnumParameter.setValue ⟨[], [], [['a']]⟩ ['z'] = .error "ValueError") := by
  have h := enum_value_mem_values ⟨some ['b'], [['a']]⟩ ⟨[], [], [['a']]⟩ ['z']
  exact ⟨h.1 ['b'] rfl (by decide), h.2.2 (by decide)⟩

/-! ## Trigger registry of the base `Parameter` class
(src/pyhon/parameter/base.py)

Only the trigger-relevant state is embedded: the raw stored `_value` and
the trigger table `_triggers`.  A registered `(func, data)` pair is
opaque to the table logic and embedded as a numeric identifier; "calling"
the functions of a matching entry is embedded as returning their
identifiers in registration order. -/

structure Parameter where
  _value : Str
  _triggers : List (Str × List ℕ)
deriving DecidableEq, Repr

/-- Outcome of `Parameter.check_trigger`: invoke the listed functions, do
nothing, or raise `KeyError`. -/
inductive TriggerResult
  | fired (fns : List ℕ)
  | noMatch
  | keyError
deriving DecidableEq, Repr

/-- The dict comprehension
`{str(k).lower(): v for k, v in self._triggers.items()}`. -/
def lowerTriggers (m : List (Str × List ℕ)) : List (Str × List ℕ) :=
  m.foldl (fun acc kv => dictSet acc (pyLower kv.1) kv.2) []

/-- Embedding of `Parameter.check_trigger` (lines 84–89 of base.py): membership is
tested against the lowercased key map with the lowercased value, but the
subsequent lookup `triggers[str(value)]` uses the *raw* value. -/
def Parameter.check_trigger (p : Parameter) (value : Str) : TriggerResult :=
  let triggers := lowerTriggers p._triggers
  if (dictGet triggers (pyLower value)).isSome then
    match dictGet triggers value with
    | some fns => .fired fns
    | none => .keyError
  else .noMatch

/-- Embedding of `Parameter.add_trigger` (lines 77–82 of base.py): fire immediately
when the stored value already equals the registered one, then record the
trigger.  The first component lists the immediately invoked function
identifiers. -/
def Parameter.add_trigger (p : Parameter) (value : Str) (fn : ℕ) :
    List ℕ × Parameter :=
  (if p._value = value then [fn] else [],
   { p with _triggers := setdefaultAppend p._triggers value fn })

/-- Claim C4: evaluation of `check_trigger` at the failing input.  A trigger
registered under `"on"` and a subsequent set of `"ON"` pass the
case-insensitive membership test but the lookup `triggers[str(value)]`
(not lowercased) raises `KeyError` — the trigger functions are *not*
invoked and the setter raises; with the already-lowercase alias `"on"`
the same trigger does fire. -/
theorem check_trigger_uppercase_raises :
    Parameter.check_trigger ⟨['o','f','f'], [(['o','n'], [0])]⟩ ['O','N'] =
      .keyError ∧
    Parameter.check_trigger ⟨['o','f','f'], [(['o','n'], [0])]⟩ ['o','n'] =
      .fired [0] := by decide

/-- Claim C8: `add_trigger(value, func, data)` invokes `func` immediately
(exactly once) precisely when the stored value equals the registered
trigger value, and in every case appends the trigger to the table entry
for that value, leaving other entries and the stored value untouched. -/
theorem add_trigger_immediate_fire (p : Parameter) (value : Str) (fn : ℕ) :
    (p.add_trigger value fn).1 = (if p._value = value then [fn] else []) ∧
    dictGet (p.add_trigger value fn).2._triggers value =
      some ((dictGet p._triggers value).getD [] ++ [fn]) ∧
    (∀ k, k ≠ value →
      dictGet (p.add_trigger value fn).2._triggers k = dictGet p._triggers k) ∧
    (p.add_trigger value fn).2._value = p._value :=
  ⟨rfl, dictGet_setdefaultAppend_self p._triggers value fn,
    fun k hk => dictGet_setdefaultAppend_ne p._triggers value k fn hk, rfl⟩

/-- Witness for `add_trigger_immediate_fire`: registering a trigger for
the current value `"1"` fires it immediately and leaves the entry of the
unrelated key `"2"` unchanged. -/
theorem add_trigger_immediate_fire_witness :
    (Parameter.add_trigger ⟨['1'], []⟩ ['1'] 7).1 = [7] ∧
    dictGet (Parameter.add_trigger ⟨['1'], []⟩ ['1'] 7).2._triggers ['2'] =
      dictGet (⟨['1'], []⟩ : Parameter)._triggers ['2'] := by
  have h := add_trigger_immediate_fire ⟨['1'], []⟩ ['1'] 7
  exact ⟨by rw [h.1]; decide, h.2.2.1 ['2'] (by decide)⟩

/-! ## `more_options` dispatch (src/pyhon/parameter/base.py,
src/pyhon/parameter/fixed.py)

`more_options` uses only the length of the `values` property and the
runtime class of the receiver/argument, so a parameter is embedded by its
class tag and its `values` list.  `ProgramParameter` subclasses
`EnumParameter` and neither overrides `more_options`, so only
`FixedParameter` dispatches away from the base implementation. -/

inductive ParamKind
  | fixed
  | enum
  | range
  | program
  | base
deriving DecidableEq, Repr

structure ParamView where
  kind : ParamKind
  values : List Str
deriving DecidableEq, Repr

/-- Embedding of `Parameter.more_options` (base.py lines 117–121). -/
def base_more_options (p q : ParamView) : ParamView :=
  if q.values.length > p.values.length then q else p

/-- Dynamic dispatch of `more_options`: `FixedParameter` overrides it
(fixed.py lines 30–34) with `if not isinstance(other, FixedParameter):
return self` before deferring to the base implementation. -/
def more_options (p q : ParamView) : ParamView :=
  match p.kind with
  | .fixed => if q.kind ≠ .fixed then p else base_more_options p q
  | _ => base_more_options p q

/-- Claim C5 counterexample: a `FixedParameter` does *not* lose to a
non-Fixed parameter — `fixed.more_options(enum)` returns the Fixed
receiver even though the Enum argument has strictly more allowed values. -/
theorem more_options_fixed_wins_counterexample :
    more_options ⟨.fixed, [['1']]⟩ ⟨.enum, [['a'], ['b']]⟩ = ⟨.fixed, [['1']]⟩ ∧
    (⟨.fixed, [['1']]⟩ : ParamView) ≠ ⟨.enum, [['a'], ['b']]⟩ := by decide

/-- Claim C5 (amended): for a non-Fixed receiver (or a Fixed receiver met by
a Fixed argument) `p.more_options(q)` returns the parameter with the
larger allowed-value set, the receiver winning ties; but a Fixed receiver
always *wins* against any non-Fixed argument: `p.more_options(q)` returns
`p`, not `q`. -/
theorem more_options_amended (p q : ParamView) :
    (p.kind = .fixed → q.kind ≠ .fixed → more_options p q = p) ∧
    (p.kind ≠ .fixed →
      more_options p q = if q.values.length > p.values.length then q else p) ∧
    (p.kind = .fixed → q.kind = .fixed →
      more_options p q = if q.values.length > p.values.length then q else p) := by
  refine ⟨?_, ?_, ?_⟩
  · intro hp hq
    unfold more_options
    rw [hp]
    simp [hq]
  · intro hp
    unfold more_options base_more_options
    cases hk : p.kind <;> simp_all
  · intro hp hq
    unfold more_options base_more_options
    rw [hp]
    simp [hq]

/-- Witness for `more_options_amended` at concrete parameters: a Fixed
receiver beats an Enum argument, and an Enum receiver loses to a larger
Enum argument. -/
theorem more_options_amended_witness :
    more_options ⟨.fixed, [['1']]⟩ ⟨.enum, [['a'], ['b']]⟩ = ⟨.fixed, [['1']]⟩ ∧
    more_options ⟨.enum, [['a']]⟩ ⟨.enum, [['a'], ['b']]⟩ =
      (if ([['a'], ['b']] : List Str).length > ([['a']] : List Str).length
        then (⟨.enum, [['a'], ['b']]⟩ : ParamView) else ⟨.enum, [['a']]⟩) :=
  ⟨(more_options_amended ⟨.fixed, [['1']]⟩ ⟨.enum, [['a'], ['b']]⟩).1 rfl (by decide),
   (more_options_amended ⟨.enum, [['a']]⟩ ⟨.enum, [['a'], ['b']]⟩).2.1 (by decide)⟩

/-! ## Rule duplication (src/pyhon/rules.py) -/

/-- Entries stored under a key of a dict-of-lists (`d.get(k, [])`). -/
def getEntries {κ α : Type} [DecidableEq κ] (m : List (κ × List α)) (k : κ) :
    List α :=
  (dictGet m k).getD []

theorem mem_setdefaultAppend_self {κ α : Type} [DecidableEq κ]
    (m : List (κ × List α)) (k : κ) (x : α) :
    x ∈ getEntries (setdefaultAppend m k x) k := by
  unfold getEntries
  rw [dictGet_setdefaultAppend_self]
  simp

theorem mem_setdefaultAppend_of_mem {κ α : Type} [DecidableEq κ]
    (m : List (κ × List α)) (k k' : κ) (x y : α)
    (h : x ∈ getEntries m k') : x ∈ getEntries (setdefaultAppend m k y) k' := by
  unfold getEntries at h ⊢
  by_cases hk : k' = k
  · subst hk
    rw [dictGet_setdefaultAppend_self]
    exact List.mem_append_left _ h
  · rw [dictGet_setdefaultAppend_ne m k k' y hk]
    exact h

theorem dictGet_mem {κ α : Type} [DecidableEq κ] {m : List (κ × α)} {k : κ} {v : α}
    (h : dictGet m k = some v) : (k, v) ∈ m := by
  induction m with
  | nil => simp [dictGet] at h
  | cons hd t ih =>
    obtain ⟨k0, v0⟩ := hd
    by_cases hk : k0 = k
    · subst hk
      rw [dictGet, if_pos rfl] at h
      cases h
      exact List.mem_cons_self _ _
    · rw [dictGet, if_neg hk] at h
      exact List.mem_cons_of_mem _ (ih h)

theorem mem_getEntries {κ α : Type} [DecidableEq κ] {m : List (κ × List α)} {k : κ}
    {x : α} (h : x ∈ getEntries m k) : ∃ rs, (k, rs) ∈ m ∧ x ∈ rs := by
  unfold getEntries at h
  cases hget : dictGet m k with
  | none => rw [hget] at h; simp at h
  | some rs =>
    rw [hget] at h
    exact ⟨rs, dictGet_mem hget, h⟩

theorem foldl_preserve_mem {κ α β : Type} [DecidableEq κ]
    (f : List (κ × List α) → β → List (κ × List α))
    (hf : ∀ acc b k x, x ∈ getEntries acc k → x ∈ getEntries (f acc b) k)
    (l : List β) (acc : List (κ × List α)) (k : κ) (x : α)
    (h : x ∈ getEntries acc k) : x ∈ getEntries (l.foldl f acc) k := by
  induction l generalizing acc with
  | nil => exact h
  | cons b t ih => exact ih _ (hf acc b k x h)

theorem foldl_reach_mem {κ α β : Type} [DecidableEq κ]
    (f : List (κ × List α) → β → List (κ × List α))
    (hf : ∀ acc b k x, x ∈ getEntries acc k → x ∈ getEntries (f acc b) k)
    (l : List β) (b : β) (hb : b ∈ l) (k : κ) (x : α)
    (hstep : ∀ acc, x ∈ getEntries (f acc b) k)
    (acc : List (κ × List α)) : x ∈ getEntries (l.foldl f acc) k := by
  induction l generalizing acc with
  | nil => cases hb
  | cons a t ih =>
    rcases List.mem_cons.mp hb with rfl | hb2
    · exact foldl_preserve_mem f hf t (f acc b) k x (hstep acc)
    · exact ih hb2 _

/-- Embedding of `HonRule` (src/pyhon/rules.py lines 9–15). -/
structure HonRule where
  trigger_key : Str
  trigger_value : Str
  param_key : Str
  param_data : List (Str × Str)
  extras : Option (List (Str × Str))
deriving DecidableEq, Repr

/-- The map `self._rules`: trigger key ↦ list of rules. -/
abbrev RuleMap := List (Str × List HonRule)

/-- The rule built for one extras entry `kv` of `r` inside
`_duplicate_for_extra_conditions`:
`extras = rule.extras.copy(); extras.pop(key);
extras[rule.trigger_key] = rule.trigger_value;
HonRule(key, value, rule.param_key, rule.param_data, extras)`. -/
def dupOf (r : HonRule) (ex : List (Str × Str)) (kv : Str × Str) : HonRule :=
  ⟨kv.1, kv.2, r.param_key, r.param_data,
    some (dictSet (dictPop ex kv.1) r.trigger_key r.trigger_value)⟩

/-- The inner loop of `_duplicate_for_extra_conditions` over one rule's
extras (`if rule.extras is not None: for key, value in
rule.extras.items(): new.setdefault(key, []).append(...)`). -/
def addDupsOfRule (acc : RuleMap) (r : HonRule) : RuleMap :=
  match r.extras with
  | none => acc
  | some ex => ex.foldl (fun acc kv => setdefaultAppend acc kv.1 (dupOf r ex kv)) acc

/-- The first half of `_duplicate_for_extra_conditions`: build `new` by
iterating over all registered rules. -/
def buildNewRules (m : RuleMap) : RuleMap :=
  m.foldl (fun acc kv => kv.2.foldl addDupsOfRule acc) []

/-- The second half: `for key, rules in new.items(): for rule in rules:
self._rules.setdefault(key, []).append(rule)`. -/
def mergeRules (m new : RuleMap) : RuleMap :=
  new.foldl (fun acc kv => kv.2.foldl (fun a r => setdefaultAppend a kv.1 r) acc) m

/-- Embedding of `HonRuleSet._duplicate_for_extra_conditions` (rules.py lines 74–89). -/
def duplicate_for_extra_conditions (m : RuleMap) : RuleMap :=
  mergeRules m (buildNewRules m)

theorem addDupsOfRule_preserve (acc : RuleMap) (r : HonRule) (k : Str)
    (x : HonRule) (h : x ∈ getEntries acc k) :
    x ∈ getEntries (addDupsOfRule acc r) k := by
  unfold addDupsOfRule
  cases r.extras with
  | none => exact h
  | some ex =>
    exact foldl_preserve_mem _
      (fun acc kv k x h => mem_setdefaultAppend_of_mem _ _ _ _ _ h) ex acc k x h

theorem mergeRules_mem_right (m new : RuleMap) (k : Str) (x : HonRule)
    (h : x ∈ getEntries new k) : x ∈ getEntries (mergeRules m new) k := by
  obtain ⟨rs, hmem, hx⟩ := mem_getEntries h
  unfold mergeRules
  refine foldl_reach_mem _ ?_ new (k, rs) hmem k x ?_ m
  · intro acc b k' x' h'
    exact foldl_preserve_mem _
      (fun acc r k x h => mem_setdefaultAppend_of_mem _ _ _ _ _ h) b.2 acc k' x' h'
  · intro acc
    exact foldl_reach_mem (fun a r => setdefaultAppend a k r)
      (fun acc r k' x' h' => mem_setdefaultAppend_of_mem _ _ _ _ _ h') rs x hx k x
      (fun acc => mem_setdefaultAppend_self acc k x) acc

theorem mergeRules_mem_left (m new : RuleMap) (k : Str) (x : HonRule)
    (h : x ∈ getEntries m k) : x ∈ getEntries (mergeRules m new) k := by
  unfold mergeRules
  refine foldl_preserve_mem _ ?_ new m k x h
  intro acc b k' x' h'
  exact foldl_preserve_mem _
    (fun acc r k x h => mem_setdefaultAppend_of_mem _ _ _ _ _ h) b.2 acc k' x' h'

theorem buildNewRules_mem (m : RuleMap) (k₀ : Str) (r : HonRule)
    (ex : List (Str × Str)) (kv : Str × Str)
    (hr : r ∈ getEntries m k₀) (hex : r.extras = some ex) (hkv : kv ∈ ex) :
    dupOf r ex kv ∈ getEntries (buildNewRules m) kv.1 := by
  obtain ⟨rs, hmem, hrs⟩ := mem_getEntries hr
  unfold buildNewRules
  refine foldl_reach_mem _ ?_ m (k₀, rs) hmem kv.1 _ ?_ []
  · intro acc b k x h
    exact foldl_preserve_mem _ addDupsOfRule_preserve b.2 acc k x h
  · intro acc
    refine foldl_reach_mem _ addDupsOfRule_preserve rs r hrs kv.1 _ ?_ acc
    intro acc
    unfold addDupsOfRule
    rw [hex]
    exact foldl_reach_mem _
      (fun acc kv' k x h => mem_setdefaultAppend_of_mem _ _ _ _ _ h) ex kv hkv _ _
      (fun acc => mem_setdefaultAppend_self acc kv.1 (dupOf r ex kv)) acc

/-- Claim C6: for every registered rule `r` carrying a (non-empty) extras
map `ex`, rule duplication registers, for each extras entry `(k, v)`, a
new rule under trigger key `k` with trigger value `v`, the same
`param_key` and `param_data`, and extras equal to `ex` with `k` removed
and the original `(trigger_key, trigger_value)` pair added; all
originally registered rules remain registered. -/
theorem rule_duplication_registers_each_extra (m : RuleMap) (k₀ : Str)
    (r : HonRule) (ex : List (Str × Str)) (kv : Str × Str)
    (hr : r ∈ getEntries m k₀) (hex : r.extras = some ex) (hkv : kv ∈ ex) :
    (⟨kv.1, kv.2, r.param_key, r.param_data,
        some (dictSet (dictPop ex kv.1) r.trigger_key r.trigger_value)⟩ : HonRule) ∈
      getEntries (duplicate_for_extra_conditions m) kv.1 ∧
    (∀ k' r', r' ∈ getEntries m k' →
      r' ∈ getEntries (duplicate_for_extra_conditions m) k') := by
  constructor
  · exact mergeRules_mem_right m (buildNewRules m) kv.1 (dupOf r ex kv)
      (buildNewRules_mem m k₀ r ex kv hr hex hkv)
  · intro k' r' h
    exact mergeRules_mem_left m (buildNewRules m) k' r' h

/-- Witness for `rule_duplication_registers_each_extra`: a rule under key
`"a"` with two extra conditions `b=1` and `c=2` is duplicated under key
`"b"` with the complementary conditions `c=2` and `a=0` as extras, while
the original rule stays registered under `"a"`. -/
theorem rule_duplication_registers_each_extra_witness :
    (⟨['b'], ['1'], ['p'], [], some [(['c'], ['2']), (['a'], ['0'])]⟩ : HonRule) ∈
      getEntries (duplicate_for_extra_conditions
        [(['a'], [⟨['a'], ['0'], ['p'], [],
          some [(['b'], ['1']), (['c'], ['2'])]⟩])]) ['b'] ∧
    (∀ k' r', r' ∈ getEntries
        [(['a'], [⟨['a'], ['0'], ['p'], [],
          some [(['b'], ['1']), (['c'], ['2'])]⟩])] k' →
      r' ∈ getEntries (duplicate_for_extra_conditions
        [(['a'], [⟨['a'], ['0'], ['p'], [],
          some [(['b'], ['1']), (['c'], ['2'])]⟩])]) k') :=
  rule_duplication_registers_each_extra
    [(['a'], [⟨['a'], ['0'], ['p'], [], some [(['b'], ['1']), (['c'], ['2'])]⟩])]
    ['a']
    ⟨['a'], ['0'], ['p'], [], some [(['b'], ['1']), (['c'], ['2'])]⟩
    [(['b'], ['1']), (['c'], ['2'])]
    (['b'], ['1'])
    (by decide) rfl (by decide)

/-! ## Category containers (src/pyhon/command_loader.py) -/

/-- Python's substring test `needle in hay`. -/
def pyContains (hay needle : Str) : Bool :=
  match hay with
  | [] => needle.isEmpty
  | _ :: t => needle.isPrefixOf hay || pyContains t needle

/-- Python `category.rsplit(".", 1)[-1]`: the segment after the last `.` (the
whole string when there is none). -/
def lastSegment (s : Str) : Str :=
  (s.reverse.takeWhile (fun c => c != '.')).reverse

/-- Embedding of `HonCommandLoader._clean_name` (command_loader.py lines 54–59). -/
def clean_name (category : Str) : Str :=
  if pyContains category ("PROGRAM".data) then pyLower (lastSegment category)
  else category

/-- A raw schema child as far as `HonCommand.parseable` inspects it: its
(possibly missing/null) `description` and `protocolType` fields. -/
structure RawCmd where
  description : Option Str
  protocolType : Option Str
deriving DecidableEq, Repr

/-- Embedding of `HonCommand.parseable` (commands.py lines 188–195):
`data.get("description") is not None and data.get("protocolType") is not
None` (the children handed to it here are dicts). -/
def parseable (d : RawCmd) : Bool :=
  d.description.isSome && d.protocolType.isSome

/-- The fields of a category `HonCommand` relevant to container
resolution: its name, the raw category name it was built under, and a
reference to the `categories` dict shared by all commands of the
container (`HonCommand.__init__` stores the dict object passed by the
loader; the heap reference embeds that sharing). -/
structure HonCommandView where
  name : Str
  category_name : Str
  categoriesRef : ℕ
deriving DecidableEq, Repr

/-- Embedding of `HonCommandLoader._parse_categories` (command_loader.py lines 82–97)
restricted to a one-level container: every parseable child yields one
command (`categories[self._clean_name(category)] = command`), all built
against the same shared `categories` dict `ref`; the returned default is
the `setParameters` entry when present, else the first entry.
(A non-parseable child yields no command, as in `_parse_command`.) -/
def parse_categories (data : List (Str × RawCmd)) (command_name : Str) (ref : ℕ) :
    List (Str × HonCommandView) × Option HonCommandView :=
  let categories := data.foldl
    (fun acc kv =>
      if parseable kv.2 then dictSet acc (clean_name kv.1) ⟨command_name, kv.1, ref⟩
      else acc) []
  match categories, dictGet categories ("setParameters".data) with
  | [], _ => ([], none)
  | c :: cs, some cmd => (c :: cs, some cmd)
  | c :: cs, none => (c :: cs, some c.2)

theorem dictSet_fresh {κ α : Type} [DecidableEq κ] (m : List (κ × α)) (k : κ)
    (v : α) (h : k ∉ m.map Prod.fst) : dictSet m k v = m ++ [(k, v)] := by
  induction m with
  | nil => rfl
  | cons hd t ih =>
    obtain ⟨k0, v0⟩ := hd
    simp only [List.map_cons, List.mem_cons, not_or] at h
    rw [dictSet, if_neg (fun he => h.1 he.symm), List.cons_append, ih h.2]

theorem parse_categories_build (name : Str) (ref : ℕ) :
    ∀ (children : List (Str × RawCmd)) (acc : List (Str × HonCommandView)),
    (∀ kv ∈ children, parseable kv.2 = true) →
    ((children.map fun kv => clean_name kv.1).Nodup) →
    (∀ kv ∈ children, clean_name kv.1 ∉ acc.map Prod.fst) →
    children.foldl
      (fun acc kv =>
        if parseable kv.2 then dictSet acc (clean_name kv.1) ⟨name, kv.1, ref⟩
        else acc) acc =
      acc ++ children.map fun kv => (clean_name kv.1, ⟨name, kv.1, ref⟩) := by
  intro children
  induction children with
  | nil => intro acc _ _ _; simp
  | cons kv rest ih =>
    intro acc hall hnodup hfresh
    simp only [List.map_cons, List.nodup_cons] at hnodup
    simp only [List.foldl_cons]
    rw [if_pos (hall kv (List.mem_cons_self _ _)),
      dictSet_fresh acc _ _ (hfresh kv (List.mem_cons_self _ _))]
    have hfr : ∀ kv' ∈ rest, clean_name kv'.1 ∉ List.map Prod.fst
        (acc ++ [(clean_name kv.1, (⟨name, kv.1, ref⟩ : HonCommandView))]) := by
      intro kv' h
      simp only [List.map_append, List.mem_append, not_or, List.map_cons,
        List.map_nil, List.mem_singleton]
      refine ⟨hfresh kv' (List.mem_cons_of_mem _ h), ?_⟩
      intro he
      exact hnodup.1 (he ▸ List.mem_map_of_mem (fun kv => clean_name kv.1) h)
    rw [ih (acc ++ [(clean_name kv.1, (⟨name, kv.1, ref⟩ : HonCommandView))])
      (fun kv' h => hall kv' (List.mem_cons_of_mem _ h)) hnodup.2 hfr]
    simp [List.map_cons]

/-- Claim C9: for a category container all of whose children are parseable
(and whose cleaned names are distinct), the loader builds one command per
child, keyed by cleaned name in insertion order, all sharing the same
`categories` reference and command name; the returned default command is
the category named `setParameters` when present, else the first category
encountered. -/
theorem parse_categories_shared_and_default (name : Str) (ref : ℕ)
    (c₀ : Str × RawCmd) (rest : List (Str × RawCmd))
    (hall : ∀ kv ∈ c₀ :: rest, parseable kv.2 = true)
    (hnodup : ((c₀ :: rest).map fun kv => clean_name kv.1).Nodup) :
    (parse_categories (c₀ :: rest) name ref).1 =
      (c₀ :: rest).map (fun kv => (clean_name kv.1, ⟨name, kv.1, ref⟩)) ∧
    (∀ e ∈ (parse_categories (c₀ :: rest) name ref).1,
      e.2.categoriesRef = ref ∧ e.2.name = name) ∧
    (parse_categories (c₀ :: rest) name ref).2 =
      some ((dictGet (parse_categories (c₀ :: rest) name ref).1
        ("setParameters".data)).getD ⟨name, c₀.1, ref⟩) := by
  have hbuild := parse_categories_build name ref (c₀ :: rest) [] hall hnodup
    (by intro kv h; simp)
  have hmain : parse_categories (c₀ :: rest) name ref =
      (let categories :=
        (c₀ :: rest).map fun kv => (clean_name kv.1, ⟨name, kv.1, ref⟩)
      match categories, dictGet categories ("setParameters".data) with
      | [], _ => ([], none)
      | c :: cs, some cmd => (c :: cs, some cmd)
      | c :: cs, none => (c :: cs, some c.2)) := by
    unfold parse_categories
    rw [hbuild]
    simp
  rw [hmain]
  simp only [List.map_cons]
  cases hget : dictGet
      ((clean_name c₀.1, (⟨name, c₀.1, ref⟩ : HonCommandView)) ::
        (rest.map fun kv => (clean_name kv.1, ⟨name, kv.1, ref⟩)))
      ("setParameters".data) with
  | none =>
    refine ⟨rfl, ?_, by rw [hget]; rfl⟩
    intro e he
    rcases List.mem_cons.mp he with rfl | he2
    · exact ⟨rfl, rfl⟩
    · obtain ⟨kv, _, hkv⟩ := List.mem_map.mp he2
      cases hkv
      exact ⟨rfl, rfl⟩
  | some cmd =>
    refine ⟨rfl, ?_, by rw [hget]; rfl⟩
    intro e he
    rcases List.mem_cons.mp he with rfl | he2
    · exact ⟨rfl, rfl⟩
    · obtain ⟨kv, _, hkv⟩ := List.mem_map.mp he2
      cases hkv
      exact ⟨rfl, rfl⟩

/-- Witness for `parse_categories_shared_and_default`: a container with
categories `"PROGRAMS.WM.COTTON"` and `"setParameters"` maps the first to
its lowercase last segment and returns the `setParameters` entry as
default. -/
theorem parse_categories_shared_and_default_witness :
    (parse_categories
      [("PROGRAMS.WM.COTTON".data, ⟨some ['d'], some ['t']⟩),
       ("setParameters".data, ⟨some ['d'], some ['t']⟩)] ['c'] 3).2 =
      some ((dictGet (parse_categories
        [("PROGRAMS.WM.COTTON".data, ⟨some ['d'], some ['t']⟩),
         ("setParameters".data, ⟨some ['d'], some ['t']⟩)] ['c'] 3).1
        ("setParameters".data)).getD ⟨['c'], "PROGRAMS.WM.COTTON".data, 3⟩) :=
  (parse_categories_shared_and_default ['c'] 3
    ("PROGRAMS.WM.COTTON".data, ⟨some ['d'], some ['t']⟩)
    [("setParameters".data, ⟨some ['d'], some ['t']⟩)]
    (by decide) (by decide)).2.2

/-! ## Favourite loading (src/pyhon/command_loader.py `_add_favourites`,
src/pyhon/commands.py `HonCommand.update` / `set_as_favourite`)

Python objects live on a heap; an `HonCommand` stores a *reference* to its
`_parameters` dict.  The heap is embedded as a list of parameter maps
(parameter key ↦ stored value; base/Fixed parameters, whose `value`
setter stores unconditionally) indexed by `paramsRef`.  `copy.copy`
duplicates the field record of the command — including the reference —
without duplicating the referenced dict. -/

/-- A parameter map: parameter key ↦ stored value. -/
abbrev ParamMap := List (Str × Str)

/-- The object heap of parameter dicts. -/
abbrev ParamHeap := List ParamMap

def heapGet (h : ParamHeap) (i : ℕ) : ParamMap := h.getD i []

def heapSet (h : ParamHeap) (i : ℕ) (m : ParamMap) : ParamHeap := h.set i m

/-- A JSON value inside a favourite entry: a string or a flat dict. -/
inductive PyVal
  | s (v : Str)
  | d (m : List (Str × Str))
deriving DecidableEq, Repr

/-- The reference-relevant fields of `HonCommand` during favourite
loading. -/
structure FavCommand where
  name : Str
  paramsRef : ℕ
deriving DecidableEq, Repr

/-- Python `copy.copy(base)`: a shallow copy — the new record holds the same
`_parameters` reference. -/
def pyCopy (c : FavCommand) : FavCommand := c

/-- Embedding of `HonCommand.update` (commands.py lines 197–203): for every non-string
top-level value of the favourite dict, set each matching parameter
(`if parameter := self.parameters.get(key): parameter.value = value`). -/
def update (h : ParamHeap) (c : FavCommand) (data : List (Str × PyVal)) :
    ParamHeap :=
  data.foldl
    (fun h kv =>
      match kv.2 with
      | .s _ => h
      | .d m =>
        m.foldl
          (fun h kv2 =>
            let params := heapGet h c.paramsRef
            if (dictGet params kv2.1).isSome then
              heapSet h c.paramsRef (dictSet params kv2.1 kv2.2)
            else h) h) h

/-- Embedding of `HonCommand.set_as_favourite` (commands.py lines 205–209): add the
synthetic Fixed parameter `favourite = "1"` to the command's parameter
dict. -/
def set_as_favourite (h : ParamHeap) (c : FavCommand) : ParamHeap :=
  heapSet h c.paramsRef
    (dictSet (heapGet h c.paramsRef) ("favourite".data) ['1'])

/-- One iteration of `HonCommandLoader._add_favourites` (command_loader.py
lines 136–144) once the base category has been resolved:
`base_command = copy(base); base_command.update(favourite);
base_command.set_as_favourite()`.  (`_update_program_categories` then
inserts the clone into the shared categories map; it writes no named
parameter's stored value and is outside this claim.) -/
def add_favourite (h : ParamHeap) (base : FavCommand)
    (fav : List (Str × PyVal)) : ParamHeap × FavCommand :=
  let clone := pyCopy base
  let h1 := update h clone fav
  let h2 := set_as_favourite h1 clone
  (h2, clone)

/-- Claim C1: evaluation at the failing input.  The base category's command
holds parameter `temp = "30"`; loading a favourite overriding
`temp = "40"` goes through `copy.copy`, whose shallow copy shares the
`_parameters` dict, so after the load the *base* command's `temp` now
reads `"40"` (and the base has even gained the synthetic
`favourite = "1"` parameter) — the claimed isolation fails. -/
theorem favourite_shallow_copy_mutates_base :
    (dictGet (heapGet (add_favourite
        [[("temp".data, "30".data)]]
        ⟨"startProgram".data, 0⟩
        [("favouriteName".data, .s "my fav".data),
         ("command".data, .d
           [("commandName".data, "startProgram".data),
            ("programName".data, "PROGRAM.WM.COTTON".data),
            ("temp".data, "40".data)])]).1
      (⟨"startProgram".data, 0⟩ : FavCommand).paramsRef) ("temp".data) =
      some ("40".data)) ∧
    (dictGet (heapGet (add_favourite
        [[("temp".data, "30".data)]]
        ⟨"startProgram".data, 0⟩
        [("favouriteName".data, .s "my fav".data),
         ("command".data, .d
           [("commandName".data, "startProgram".data),
            ("programName".data, "PROGRAM.WM.COTTON".data),
            ("temp".data, "40".data)])]).1
      (⟨"startProgram".data, 0⟩ : FavCommand).paramsRef) ("favourite".data) =
      some ("1".data)) := by decide

end PyHon
